import Mathlib

/-!
Verification of the `heir` binary session codec.

The development shallowly embeds the Rust sources:
* `src/formats/heir_bin.rs` — the frame codec (`HeirBin.write_to_file`,
  `HeirBin.read_from_file`) over a byte stream, modelled as `List Nat`
  with every byte reduced modulo 256 exactly where the source casts;
* `src/types/card.rs`, `src/types/action.rs`, `src/types/version.rs`,
  `src/types/board.rs` — the bit-packed scalar codecs.

Readers are modelled as a state-passing parser over the remaining input;
`read_exact` fails with `Err.eof` when fewer bytes remain than requested,
mirroring `std::io::ErrorKind::UnexpectedEof`.
-/

namespace Heir

/-- Error kinds of the frame codec, one per distinct `io::Error` the source
constructs, plus `eof` for a failing `read_exact`. -/
inductive Err where
  | eof
  | invalidMagic
  | unsupportedVersion
  | invalidLocation
  | invalidEventType
  | invalidPresence
  deriving DecidableEq, Repr

instance exceptDecEq {ε α : Type} [DecidableEq ε] [DecidableEq α] :
    DecidableEq (Except ε α)
  | .ok a, .ok b =>
    if h : a = b then .isTrue (by rw [h]) else .isFalse (by simp [h])
  | .ok _, .error _ => .isFalse (by simp)
  | .error _, .ok _ => .isFalse (by simp)
  | .error e, .error e' =>
    if h : e = e' then .isTrue (by rw [h]) else .isFalse (by simp [h])

/-- A parser over a byte stream: consumes bytes from the front of the list,
returning the parsed value and the unconsumed tail, or an error. -/
def Parser (α : Type) : Type := List Nat → Except Err (α × List Nat)

def Parser.pureP (a : α) : Parser α := fun l => .ok (a, l)

def Parser.bindP (p : Parser α) (f : α → Parser β) : Parser β := fun l =>
  match p l with
  | .ok (a, l') => f a l'
  | .error e => .error e

instance : Monad Parser where
  pure := Parser.pureP
  bind := Parser.bindP

/-- Abort the parse with error `e` (an early `return Err(...)` in the source). -/
def Parser.fail (e : Err) : Parser α := fun _ => .error e

theorem Parser.pure_def (a : α) (l : List Nat) :
    (pure a : Parser α) l = .ok (a, l) := rfl

theorem Parser.bind_def (p : Parser α) (f : α → Parser β) (l : List Nat) :
    (p >>= f) l = match p l with
      | .ok (a, l') => f a l'
      | .error e => .error e := rfl

theorem Parser.bind_ok {p : Parser α} {f : α → Parser β} {l : List Nat}
    {a : α} {l' : List Nat} (h : p l = .ok (a, l')) :
    (p >>= f) l = f a l' := by
  simp [Parser.bind_def, h]

theorem Parser.bind_err {p : Parser α} {f : α → Parser β} {l : List Nat}
    {e : Err} (h : p l = .error e) :
    (p >>= f) l = .error e := by
  simp [Parser.bind_def, h]

theorem Parser.bind_ok_iff {p : Parser α} {f : α → Parser β} {l : List Nat}
    {b : β} {r : List Nat} :
    (p >>= f) l = .ok (b, r) ↔
      ∃ a l', p l = .ok (a, l') ∧ f a l' = .ok (b, r) := by
  constructor
  · intro h
    cases hp : p l with
    | ok al =>
      obtain ⟨a, l'⟩ := al
      refine ⟨a, l', rfl, ?_⟩
      rw [Parser.bind_ok hp] at h
      exact h
    | error e =>
      rw [Parser.bind_err hp] at h
      simp at h
  · rintro ⟨a, l', h1, h2⟩
    rw [Parser.bind_ok h1]
    exact h2

/-- `reader.read_exact(&mut buf)` for a `k`-byte buffer: takes the first `k`
bytes, failing with `UnexpectedEof` when fewer remain. -/
def readBytes (k : Nat) : Parser (List Nat) := fun l =>
  if l.length < k then .error .eof else .ok (l.take k, l.drop k)

/-- Little-endian bytes of `n`, `k` bytes wide: `n.to_le_bytes()` for the
fixed-width unsigned integers (each byte is the value reduced mod 256). -/
def toLe (k n : Nat) : List Nat :=
  match k with
  | 0 => []
  | k + 1 => (n % 256) :: toLe k (n / 256)

/-- `uN::from_le_bytes`: reassemble a little-endian byte list. -/
def fromLe (bs : List Nat) : Nat := bs.foldr (fun b acc => b + 256 * acc) 0

/-- Read a `k`-byte little-endian unsigned integer. -/
def readLe (k : Nat) : Parser Nat := do
  let bs ← readBytes k
  pure (fromLe bs)

@[simp] theorem toLe_length (k n : Nat) : (toLe k n).length = k := by
  induction k generalizing n with
  | zero => rfl
  | succ k ih => simp [toLe, ih]

theorem fromLe_toLe (k n : Nat) (h : n < 256 ^ k) : fromLe (toLe k n) = n := by
  induction k generalizing n with
  | zero => simp at h; simp [toLe, fromLe, h]
  | succ k ih =>
    have hdiv : n / 256 < 256 ^ k := by
      rw [Nat.div_lt_iff_lt_mul (by norm_num)]
      calc n < 256 ^ (k + 1) := h
        _ = 256 ^ k * 256 := by ring
    have := ih (n / 256) hdiv
    simp only [toLe, fromLe, List.foldr_cons] at *
    rw [this]
    omega

/-- Whether `lo ≤ c ≤ hi`, as a Bool. -/
def between (lo c hi : Nat) : Bool := decide (lo ≤ c) && decide (c ≤ hi)

/-- Whether `c` is a UTF-8 continuation byte (`0x80..=0xBF`). -/
def contB (c : Nat) : Bool := between 0x80 c 0xBF

/-- UTF-8 validity of a byte sequence, as checked by `String::from_utf8`:
standard UTF-8 with no overlong forms, no surrogates, and code points at
most `U+10FFFF`. -/
def validUtf8 : List Nat → Bool
  | [] => true
  | b :: rest =>
    if b ≤ 0x7F then validUtf8 rest
    else if b ≤ 0xC1 then false
    else if b ≤ 0xDF then
      match rest with
      | c1 :: rest2 => contB c1 && validUtf8 rest2
      | [] => false
    else if b ≤ 0xEF then
      match rest with
      | c1 :: c2 :: rest3 =>
        (if b = 0xE0 then between 0xA0 c1 0xBF
         else if b = 0xED then between 0x80 c1 0x9F
         else contB c1) && contB c2 && validUtf8 rest3
      | _ => false
    else if b ≤ 0xF4 then
      match rest with
      | c1 :: c2 :: c3 :: rest4 =>
        (if b = 0xF0 then between 0x90 c1 0xBF
         else if b = 0xF4 then between 0x80 c1 0x8F
         else contB c1) && contB c2 && contB c3 && validUtf8 rest4
      | _ => false
    else false

/-! ## The data model of `heir_bin.rs`

The `HeirBin` struct tree, with every fixed-width Rust integer modelled
as a `Nat`; well-formedness (`wf`) states the width bounds the Rust types
enforce, plus the structural facts `String` guarantees for `location`
(valid UTF-8; NUL-freeness is a separate hypothesis where relevant). -/

structure Player where
  id : Nat
  stack : Nat
  deriving DecidableEq, Repr

structure BinAction where
  player_and_action : Nat
  bet_amount : Nat
  deriving DecidableEq, Repr

structure Hand where
  id : Nat
  button_position : Nat
  hole_cards : List (Nat × Nat)
  actions : List BinAction
  timestamp : Nat
  board : Nat
  deriving DecidableEq, Repr

structure StackUpdate where
  seat : Nat
  stack : Nat
  deriving DecidableEq, Repr

structure SeatUpdate where
  seat : Nat
  player : Option Player
  deriving DecidableEq, Repr

inductive Event where
  | hand : Hand → Event
  | stackUpdate : StackUpdate → Event
  | seatUpdate : SeatUpdate → Event
  deriving DecidableEq, Repr

structure Table where
  id : Nat
  location : List Nat
  table_size : Nat
  initial_context : List Player
  events : List Event
  deriving DecidableEq, Repr

structure HeirBin where
  session_id : Nat
  tables : List Table
  deriving DecidableEq, Repr

def Player.wf (p : Player) : Bool :=
  decide (p.id < 2 ^ 32) && decide (p.stack < 2 ^ 32)

def BinAction.wf (a : BinAction) : Bool :=
  decide (a.player_and_action < 256) && decide (a.bet_amount < 2 ^ 32)

def Hand.wf (h : Hand) : Bool :=
  decide (h.id < 2 ^ 32) && decide (h.button_position < 256) &&
  decide (h.hole_cards.length < 256) &&
  h.hole_cards.all (fun c => decide (c.1 < 256) && decide (c.2 < 256)) &&
  decide (h.actions.length < 256) && h.actions.all BinAction.wf &&
  decide (h.timestamp < 2 ^ 64) && decide (h.board < 2 ^ 32)

def Event.wf : Event → Bool
  | .hand h => h.wf
  | .stackUpdate u => decide (u.seat < 256) && decide (u.stack < 2 ^ 32)
  | .seatUpdate u =>
    decide (u.seat < 256) &&
    (match u.player with
     | some p => p.wf
     | none => true)

def Table.wf (t : Table) : Bool :=
  decide (t.id < 2 ^ 32) &&
  t.location.all (fun b => decide (b < 256) && decide (b ≠ 0)) &&
  validUtf8 t.location &&
  decide (t.table_size < 256) &&
  decide (t.initial_context.length < 256) &&
  t.initial_context.all Player.wf &&
  decide (t.events.length < 2 ^ 32) &&
  t.events.all Event.wf

def HeirBin.wf (s : HeirBin) : Bool :=
  decide (s.session_id < 2 ^ 32) && decide (s.tables.length < 256) &&
  s.tables.all Table.wf

/-! ## The encoder — `HeirBin::write_to_file`

Each `writer.write_all` becomes list concatenation, in source order.
Rust's `as u8` and `as u32` narrowing casts become reduction mod the
width, which `toLe` performs byte by byte. -/

/-- The four ASCII bytes of the magic header `"HEIR"`. -/
def MAGIC : List Nat := [0x48, 0x45, 0x49, 0x52]

/-- The single format version byte. -/
def VERSION : Nat := 0x00

def encPlayer (p : Player) : List Nat :=
  toLe 4 p.id ++ toLe 4 p.stack

def encHolePair (c : Nat × Nat) : List Nat :=
  toLe 1 c.1 ++ toLe 1 c.2

def encBinAction (a : BinAction) : List Nat :=
  toLe 1 a.player_and_action ++ toLe 4 a.bet_amount

def encHand (h : Hand) : List Nat :=
  toLe 4 h.id ++ toLe 1 h.button_position ++
  toLe 1 h.hole_cards.length ++ (h.hole_cards.map encHolePair).flatten ++
  toLe 1 h.actions.length ++ (h.actions.map encBinAction).flatten ++
  toLe 8 h.timestamp ++ toLe 4 h.board

def encEvent : Event → List Nat
  | .hand h =>
    [0] ++ encHand h
  | .stackUpdate u =>
    [1] ++ toLe 1 u.seat ++ toLe 4 u.stack
  | .seatUpdate u =>
    [2] ++ toLe 1 u.seat ++
    (match u.player with
     | some p => [1] ++ encPlayer p
     | none => [0])

def encTable (t : Table) : List Nat :=
  toLe 4 t.id ++ t.location ++ [0] ++ toLe 1 t.table_size ++
  toLe 1 t.initial_context.length ++ (t.initial_context.map encPlayer).flatten ++
  toLe 4 t.events.length ++ (t.events.map encEvent).flatten

/-- `HeirBin::write_to_file`, with the writer made explicit as the byte
list it accumulates (a `Vec<u8>` writer never fails, so the `io::Result`
wrapper is dropped). -/
def HeirBin.write_to_file (s : HeirBin) : List Nat :=
  MAGIC ++ [VERSION] ++ toLe 4 s.session_id ++ toLe 1 s.tables.length ++
  (s.tables.map encTable).flatten

/-! ## The decoder — `HeirBin::read_from_file`

One parser per syntactic layer, in the order the source reads fields;
`parseCount n p` is the `for _ in 0..n` accumulation loop. -/

/-- The `for _ in 0..n { ... push(p) }` loop: run `p` exactly `n` times,
collecting the results in order. -/
def parseCount (n : Nat) (p : Parser α) : Parser (List α) :=
  match n with
  | 0 => pure []
  | n + 1 => do
    let a ← p
    let as ← parseCount n p
    pure (a :: as)

/-- The location-string byte loop: read single bytes until a NUL, which is
consumed and dropped; running out of input is a short read. -/
def takeUntilZero : List Nat → Except Err (List Nat × List Nat)
  | [] => .error .eof
  | b :: r =>
    if b = 0 then .ok ([], r)
    else
      match takeUntilZero r with
      | .ok (loc, rest) => .ok (b :: loc, rest)
      | .error e => .error e

/-- Read the NUL-terminated location and apply the `String::from_utf8`
validity check, failing with the invalid-location error on bad UTF-8. -/
def readLocation : Parser (List Nat) := fun l => do
  let (bs, rest) ← takeUntilZero l
  if validUtf8 bs then .ok (bs, rest) else .error .invalidLocation

def parsePlayer : Parser Player := do
  let id ← readLe 4
  let stack ← readLe 4
  pure ⟨id, stack⟩

def parseHolePair : Parser (Nat × Nat) := do
  let c1 ← readLe 1
  let c2 ← readLe 1
  pure (c1, c2)

def parseBinAction : Parser BinAction := do
  let paa ← readLe 1
  let bet ← readLe 4
  pure ⟨paa, bet⟩

def parseHand : Parser Hand := do
  let id ← readLe 4
  let bp ← readLe 1
  let np ← readLe 1
  let hc ← parseCount np parseHolePair
  let na ← readLe 1
  let as ← parseCount na parseBinAction
  let ts ← readLe 8
  let bd ← readLe 4
  pure ⟨id, bp, hc, as, ts, bd⟩

/-- The `match player_present[0]` arm of a seat-update event: `1` reads a
player, `0` is an explicit absence, anything else is a format error. -/
def parseSeatPlayer (seat pres : Nat) : Parser Event :=
  if pres = 1 then do
    let p ← parsePlayer
    pure (.seatUpdate ⟨seat, some p⟩)
  else if pres = 0 then
    pure (.seatUpdate ⟨seat, none⟩)
  else
    Parser.fail .invalidPresence

/-- The `match event_type_byte[0]` dispatch on the event tag. -/
def parseEventBody (tag : Nat) : Parser Event :=
  if tag = 0 then do
    let h ← parseHand
    pure (.hand h)
  else if tag = 1 then do
    let seat ← readLe 1
    let stack ← readLe 4
    pure (.stackUpdate ⟨seat, stack⟩)
  else if tag = 2 then do
    let seat ← readLe 1
    let pres ← readLe 1
    parseSeatPlayer seat pres
  else
    Parser.fail .invalidEventType

def parseEvent : Parser Event := do
  let tag ← readLe 1
  parseEventBody tag

/-- The tail of a table record after id and location, assembling the
`Table` value exactly where the source pushes it. -/
def parseTableRest (id : Nat) (loc : List Nat) : Parser Table := do
  let tsz ← readLe 1
  let np ← readLe 1
  let ic ← parseCount np parsePlayer
  let ne ← readLe 4
  let evs ← parseCount ne parseEvent
  pure ⟨id, loc, tsz, ic, evs⟩

def parseTable : Parser Table := do
  let id ← readLe 4
  let loc ← readLocation
  parseTableRest id loc

/-- The body after the header checks: session id already read. -/
def parseSessionBody (sid : Nat) : Parser HeirBin := do
  let nt ← readLe 1
  let ts ← parseCount nt parseTable
  pure ⟨sid, ts⟩

/-- The version-byte check of the header. -/
def afterVersion (v : Nat) : Parser HeirBin :=
  if v = VERSION then do
    let sid ← readLe 4
    parseSessionBody sid
  else
    Parser.fail .unsupportedVersion

/-- The magic-number check of the header. -/
def afterMagic (m : List Nat) : Parser HeirBin :=
  if m = MAGIC then do
    let v ← readLe 1
    afterVersion v
  else
    Parser.fail .invalidMagic

/-- `HeirBin::read_from_file`: magic check, version check, session id,
table records. -/
def HeirBin.read_from_file : Parser HeirBin := do
  let m ← readBytes 4
  afterMagic m

/-! ## Parser correctness framework

`Consumes p xs a` — `p` consumes exactly `xs` from the front of any input
beginning with `xs`, yielding `a`.  `FailsShort p xs` — `p` fails with a
short read on every proper truncation of `xs`.  Both compose over `bind`,
mirroring the strictly advancing cursor of the source. -/

def Consumes (p : Parser α) (xs : List Nat) (a : α) : Prop :=
  ∀ rest, p (xs ++ rest) = .ok (a, rest)

def FailsShort (p : Parser α) (xs : List Nat) : Prop :=
  ∀ n, n < xs.length → p (xs.take n) = .error .eof

theorem consumes_pure (a : α) : Consumes (pure a) [] a := fun _ => rfl

theorem consumes_congr {p : Parser α} {xs xs' : List Nat} {a : α}
    (h : Consumes p xs a) (he : xs' = xs) : Consumes p xs' a := he ▸ h

theorem failsShort_congr {p : Parser α} {xs xs' : List Nat}
    (h : FailsShort p xs) (he : xs' = xs) : FailsShort p xs' := he ▸ h

theorem consumes_bind {p : Parser α} {f : α → Parser β} {xs ys : List Nat}
    {a : α} {b : β} (h1 : Consumes p xs a) (h2 : Consumes (f a) ys b) :
    Consumes (p >>= f) (xs ++ ys) b := by
  intro rest
  rw [List.append_assoc]
  rw [Parser.bind_ok (h1 (ys ++ rest))]
  exact h2 rest

/-- `consumes_bind` packaged with an explicit decomposition equation, so
chains can be applied outside-in with `simp`-discharged splits. -/
theorem consumes_bind' {p : Parser α} {f : α → Parser β} {x y z : List Nat}
    {a : α} {b : β} (h1 : Consumes p x a) (h2 : Consumes (f a) y b)
    (hz : z = x ++ y) : Consumes (p >>= f) z b :=
  consumes_congr (consumes_bind h1 h2) hz

theorem failsShort_pure (a : α) : FailsShort (pure a) [] := by
  intro n hn
  simp at hn

theorem failsShort_bind {p : Parser α} {f : α → Parser β} {xs ys : List Nat}
    {a : α} (hc : Consumes p xs a) (h1 : FailsShort p xs)
    (h2 : FailsShort (f a) ys) : FailsShort (p >>= f) (xs ++ ys) := by
  intro n hn
  rw [List.take_append_eq_append_take]
  by_cases hx : n ≤ xs.length
  · have hz : n - xs.length = 0 := by omega
    rw [hz, List.take_zero, List.append_nil]
    rcases Nat.lt_or_ge n xs.length with hlt | hge
    · exact Parser.bind_err (h1 n hlt)
    · -- n = xs.length: the whole of xs is present, ys is truncated to []
      have hxn : n = xs.length := by omega
      have hys : 0 < ys.length := by
        rw [List.length_append] at hn; omega
      have htake : xs.take n = xs ++ ([] : List Nat) := by
        rw [hxn, List.take_length, List.append_nil]
      rw [htake, Parser.bind_ok (hc [])]
      have := h2 0 hys
      rw [List.take_zero] at this
      exact this
  · have hxs : xs.take n = xs := List.take_of_length_le (by omega)
    rw [hxs, Parser.bind_ok (hc (ys.take (n - xs.length)))]
    apply h2
    rw [List.length_append] at hn
    omega

theorem failsShort_bind' {p : Parser α} {f : α → Parser β} {x y z : List Nat}
    {a : α} (hc : Consumes p x a) (h1 : FailsShort p x)
    (h2 : FailsShort (f a) y) (hz : z = x ++ y) :
    FailsShort (p >>= f) z :=
  failsShort_congr (failsShort_bind hc h1 h2) hz

theorem consumes_readBytes {k : Nat} {xs : List Nat} (h : xs.length = k) :
    Consumes (readBytes k) xs xs := by
  intro rest
  simp [readBytes, h, List.take_left' h, List.drop_left' h]

theorem failsShort_readBytes {k : Nat} {xs : List Nat} (h : xs.length = k) :
    FailsShort (readBytes k) xs := by
  intro n hn
  have : (xs.take n).length = n := by
    rw [List.length_take]; omega
  simp [readBytes, this]; omega

theorem consumes_readLe {k n : Nat} (h : n < 256 ^ k) :
    Consumes (readLe k) (toLe k n) n := by
  apply consumes_bind' (consumes_readBytes (toLe_length k n))
    (a := toLe k n) (y := [])
  · rw [fromLe_toLe k n h]; exact consumes_pure n
  · simp

theorem failsShort_readLe (k n : Nat) : FailsShort (readLe k) (toLe k n) := by
  apply failsShort_bind' (consumes_readBytes (toLe_length k n))
    (failsShort_readBytes (toLe_length k n)) (a := toLe k n) (y := [])
  · exact failsShort_pure _
  · simp

theorem consumes_parseCount {p : Parser α} {enc : β → List Nat} {d : β → α}
    (vs : List β) (h : ∀ v ∈ vs, Consumes p (enc v) (d v)) :
    Consumes (parseCount vs.length p) ((vs.map enc).flatten) (vs.map d) := by
  induction vs with
  | nil => exact consumes_congr (consumes_pure []) (by simp)
  | cons v vs ih =>
    simp only [List.length_cons, List.map_cons, List.flatten_cons, parseCount]
    apply consumes_bind' (h v (by simp)) (y := (vs.map enc).flatten ++ [])
    · apply consumes_bind' (ih (fun w hw => h w (by simp [hw]))) (y := [])
      · exact consumes_pure _
      · simp
    · simp

theorem failsShort_parseCount {p : Parser α} {enc : β → List Nat} {d : β → α}
    (vs : List β) (hc : ∀ v ∈ vs, Consumes p (enc v) (d v))
    (hf : ∀ v ∈ vs, FailsShort p (enc v)) :
    FailsShort (parseCount vs.length p) ((vs.map enc).flatten) := by
  induction vs with
  | nil => exact failsShort_congr (failsShort_pure []) (by simp)
  | cons v vs ih =>
    simp only [List.length_cons, List.map_cons, List.flatten_cons, parseCount]
    apply failsShort_bind' (hc v (by simp)) (hf v (by simp))
      (y := (vs.map enc).flatten ++ [])
    · apply failsShort_bind'
        (f := fun as => pure (d v :: as))
        (consumes_parseCount vs (fun w hw => hc w (by simp [hw])))
        (ih (fun w hw => hc w (by simp [hw])) (fun w hw => hf w (by simp [hw])))
        (y := []) (failsShort_pure _)
      simp
    · simp

/-! ## Round-trip lemmas, layer by layer -/

theorem pow256_1 : (256 : Nat) ^ 1 = 2 ^ 8 := by norm_num
theorem pow256_4 : (256 : Nat) ^ 4 = 2 ^ 32 := by norm_num
theorem pow256_8 : (256 : Nat) ^ 8 = 2 ^ 64 := by norm_num

theorem Parser.bindP_assoc (p : Parser α) (f : α → Parser β) (g : β → Parser γ) :
    (p >>= f) >>= g = p >>= fun a => f a >>= g := by
  funext l
  simp only [Parser.bind_def]
  cases p l with
  | ok al => rfl
  | error e => rfl

theorem consumes_encPlayer {p : Player} (hp : p.wf = true) :
    Consumes parsePlayer (encPlayer p) p := by
  simp only [Player.wf, Bool.and_eq_true, decide_eq_true_eq] at hp
  obtain ⟨h1, h2⟩ := hp
  intro rest
  simp only [encPlayer, List.append_assoc]
  unfold parsePlayer
  rw [Parser.bind_ok (consumes_readLe (by rw [pow256_4]; exact h1) _)]
  rw [Parser.bind_ok (consumes_readLe (by rw [pow256_4]; exact h2) _)]
  rfl

theorem consumes_encHolePair {c : Nat × Nat} (h1 : c.1 < 256) (h2 : c.2 < 256) :
    Consumes parseHolePair (encHolePair c) c := by
  intro rest
  simp only [encHolePair, List.append_assoc]
  unfold parseHolePair
  rw [Parser.bind_ok (consumes_readLe (by simpa using h1) _)]
  rw [Parser.bind_ok (consumes_readLe (by simpa using h2) _)]
  rfl

theorem consumes_encBinAction {a : BinAction} (ha : a.wf = true) :
    Consumes parseBinAction (encBinAction a) a := by
  simp only [BinAction.wf, Bool.and_eq_true, decide_eq_true_eq] at ha
  obtain ⟨h1, h2⟩ := ha
  intro rest
  simp only [encBinAction, List.append_assoc]
  unfold parseBinAction
  rw [Parser.bind_ok (consumes_readLe (by simpa using h1) _)]
  rw [Parser.bind_ok (consumes_readLe (by rw [pow256_4]; exact h2) _)]
  rfl

theorem consumes_parseCount_id {p : Parser α} {enc : α → List Nat}
    (vs : List α) (h : ∀ v ∈ vs, Consumes p (enc v) v) :
    Consumes (parseCount vs.length p) ((vs.map enc).flatten) vs := by
  have := consumes_parseCount (d := fun v => v) vs h
  simpa using this

theorem consumes_encHand {h : Hand} (hw : h.wf = true) :
    Consumes parseHand (encHand h) h := by
  simp only [Hand.wf, Bool.and_eq_true, decide_eq_true_eq,
    List.all_eq_true] at hw
  obtain ⟨⟨⟨⟨⟨⟨⟨hid, hbp⟩, hhcl⟩, hhc⟩, hal⟩, ha⟩, hts⟩, hbd⟩ := hw
  intro rest
  simp only [encHand, List.append_assoc]
  unfold parseHand
  rw [Parser.bind_ok (consumes_readLe (by rw [pow256_4]; exact hid) _)]
  rw [Parser.bind_ok (consumes_readLe (by simpa using hbp) _)]
  rw [Parser.bind_ok (consumes_readLe (by simpa using hhcl) _)]
  rw [Parser.bind_ok (consumes_parseCount_id h.hole_cards
    (fun c hc => consumes_encHolePair
      (by simpa using (hhc c hc).1) (by simpa using (hhc c hc).2)) _)]
  rw [Parser.bind_ok (consumes_readLe (by simpa using hal) _)]
  rw [Parser.bind_ok (consumes_parseCount_id h.actions
    (fun a haa => consumes_encBinAction (ha a haa)) _)]
  rw [Parser.bind_ok (consumes_readLe (by rw [pow256_8]; exact hts) _)]
  rw [Parser.bind_ok (consumes_readLe (by rw [pow256_4]; exact hbd) _)]
  rfl

theorem consumes_encEvent {e : Event} (he : e.wf = true) :
    Consumes parseEvent (encEvent e) e := by
  cases e with
  | hand h =>
    intro rest
    simp only [encEvent, List.append_assoc]
    unfold parseEvent
    rw [show ([0] : List Nat) = toLe 1 0 from rfl]
    rw [Parser.bind_ok (consumes_readLe (by norm_num) _)]
    unfold parseEventBody
    rw [if_pos rfl]
    rw [Parser.bind_ok (consumes_encHand he _)]
    rfl
  | stackUpdate u =>
    simp only [Event.wf, Bool.and_eq_true, decide_eq_true_eq] at he
    obtain ⟨h1, h2⟩ := he
    intro rest
    simp only [encEvent, List.append_assoc]
    unfold parseEvent
    rw [show ([1] : List Nat) = toLe 1 1 from rfl]
    rw [Parser.bind_ok (consumes_readLe (by norm_num) _)]
    unfold parseEventBody
    rw [if_neg (by decide), if_pos rfl]
    rw [Parser.bind_ok (consumes_readLe (by simpa using h1) _)]
    rw [Parser.bind_ok (consumes_readLe (by rw [pow256_4]; exact h2) _)]
    rfl
  | seatUpdate u =>
    obtain ⟨seat, player⟩ := u
    simp only [Event.wf, Bool.and_eq_true, decide_eq_true_eq] at he
    obtain ⟨h1, h2⟩ := he
    intro rest
    simp only [encEvent, List.append_assoc]
    unfold parseEvent
    rw [show ([2] : List Nat) = toLe 1 2 from rfl]
    rw [Parser.bind_ok (consumes_readLe (by norm_num) _)]
    unfold parseEventBody
    rw [if_neg (by decide), if_neg (by decide), if_pos rfl]
    rw [Parser.bind_ok (consumes_readLe (by simpa using h1) _)]
    cases player with
    | some p =>
      simp only []
      rw [show ([1] : List Nat) = toLe 1 1 from rfl]
      simp only [List.append_assoc]
      unfold parseSeatPlayer
      rw [Parser.bind_ok (consumes_readLe (by norm_num) _)]
      rw [if_pos rfl]
      rw [Parser.bind_ok (consumes_encPlayer h2 _)]
      rfl
    | none =>
      simp only []
      rw [show ([0] : List Nat) = toLe 1 0 from rfl]
      unfold parseSeatPlayer
      rw [Parser.bind_ok (consumes_readLe (by norm_num) _)]
      rw [if_neg (by decide), if_pos rfl]
      rfl

/-! ## Location-string lemmas -/

theorem takeUntilZero_append {loc : List Nat} (h0 : ∀ b ∈ loc, b ≠ 0)
    (rest : List Nat) :
    takeUntilZero (loc ++ 0 :: rest) = .ok (loc, rest) := by
  induction loc with
  | nil => simp [takeUntilZero]
  | cons b l ih =>
    have hb : b ≠ 0 := h0 b (by simp)
    simp only [List.cons_append, takeUntilZero, if_neg hb]
    rw [List.append_eq, ih (fun c hc => h0 c (by simp [hc]))]

theorem takeUntilZero_eof {l : List Nat} (h0 : ∀ b ∈ l, b ≠ 0) :
    takeUntilZero l = .error .eof := by
  induction l with
  | nil => rfl
  | cons b r ih =>
    have hb : b ≠ 0 := h0 b (by simp)
    simp only [takeUntilZero, if_neg hb]
    rw [ih (fun c hc => h0 c (by simp [hc]))]

theorem readLocation_cons {loc : List Nat} (h0 : ∀ b ∈ loc, b ≠ 0)
    (hu : validUtf8 loc = true) (rest : List Nat) :
    readLocation (loc ++ 0 :: rest) = .ok (loc, rest) := by
  simp [readLocation, takeUntilZero_append h0, Bind.bind, Except.bind, hu]

theorem consumes_readLocation {loc : List Nat} (h0 : ∀ b ∈ loc, b ≠ 0)
    (hu : validUtf8 loc = true) :
    Consumes readLocation (loc ++ [0]) loc := by
  intro rest
  have he : (loc ++ [0]) ++ rest = loc ++ 0 :: rest := by simp
  rw [he, readLocation_cons h0 hu]

theorem failsShort_readLocation {loc : List Nat} (h0 : ∀ b ∈ loc, b ≠ 0) :
    FailsShort readLocation (loc ++ [0]) := by
  intro n hn
  have hnl : n ≤ loc.length := by
    simp only [List.length_append, List.length_cons, List.length_nil] at hn
    omega
  have ht : (loc ++ [0]).take n = loc.take n := by
    rw [List.take_append_eq_append_take]
    have hz : n - loc.length = 0 := by omega
    simp [hz]
  rw [ht]
  have he : takeUntilZero (loc.take n) = .error .eof :=
    takeUntilZero_eof (fun b hb => h0 b (List.mem_of_mem_take hb))
  simp [readLocation, he, Bind.bind, Except.bind]

/-! ## Truncation lemmas, layer by layer -/

theorem failsShort_parseCount_id {p : Parser α} {enc : α → List Nat}
    (vs : List α) (hc : ∀ v ∈ vs, Consumes p (enc v) v)
    (hf : ∀ v ∈ vs, FailsShort p (enc v)) :
    FailsShort (parseCount vs.length p) ((vs.map enc).flatten) :=
  failsShort_parseCount (d := fun v => v) vs hc hf

theorem failsShort_encPlayer {p : Player} (hp : p.wf = true) :
    FailsShort parsePlayer (encPlayer p) := by
  simp only [Player.wf, Bool.and_eq_true, decide_eq_true_eq] at hp
  obtain ⟨h1, h2⟩ := hp
  unfold parsePlayer
  apply failsShort_bind' (consumes_readLe (by rw [pow256_4]; exact h1))
    (failsShort_readLe 4 p.id)
  case h2 =>
    apply failsShort_bind' (consumes_readLe (by rw [pow256_4]; exact h2))
      (failsShort_readLe 4 p.stack)
    case h2 => exact failsShort_pure _
    case hz => rfl
  case hz => simp [encPlayer]

theorem failsShort_encHolePair {c : Nat × Nat} (h1 : c.1 < 256)
    (h2 : c.2 < 256) : FailsShort parseHolePair (encHolePair c) := by
  unfold parseHolePair
  apply failsShort_bind' (consumes_readLe (by simpa using h1))
    (failsShort_readLe 1 c.1)
  case h2 =>
    apply failsShort_bind' (consumes_readLe (by simpa using h2))
      (failsShort_readLe 1 c.2)
    case h2 => exact failsShort_pure _
    case hz => rfl
  case hz => simp [encHolePair]

theorem failsShort_encBinAction {a : BinAction} (ha : a.wf = true) :
    FailsShort parseBinAction (encBinAction a) := by
  simp only [BinAction.wf, Bool.and_eq_true, decide_eq_true_eq] at ha
  obtain ⟨h1, h2⟩ := ha
  unfold parseBinAction
  apply failsShort_bind' (consumes_readLe (by simpa using h1))
    (failsShort_readLe 1 a.player_and_action)
  case h2 =>
    apply failsShort_bind' (consumes_readLe (by rw [pow256_4]; exact h2))
      (failsShort_readLe 4 a.bet_amount)
    case h2 => exact failsShort_pure _
    case hz => rfl
  case hz => simp [encBinAction]

theorem failsShort_encHand {h : Hand} (hw : h.wf = true) :
    FailsShort parseHand (encHand h) := by
  simp only [Hand.wf, Bool.and_eq_true, decide_eq_true_eq,
    List.all_eq_true] at hw
  obtain ⟨⟨⟨⟨⟨⟨⟨hid, hbp⟩, hhcl⟩, hhc⟩, hal⟩, ha⟩, hts⟩, hbd⟩ := hw
  unfold parseHand
  apply failsShort_bind' (consumes_readLe (by rw [pow256_4]; exact hid))
    (failsShort_readLe 4 h.id)
  case h2 =>
    apply failsShort_bind' (consumes_readLe (by simpa using hbp))
      (failsShort_readLe 1 h.button_position)
    case h2 =>
      apply failsShort_bind' (consumes_readLe (by simpa using hhcl))
        (failsShort_readLe 1 h.hole_cards.length)
      case h2 =>
        apply failsShort_bind'
          (consumes_parseCount_id h.hole_cards
            (fun c hc => consumes_encHolePair
              (by simpa using (hhc c hc).1) (by simpa using (hhc c hc).2)))
          (failsShort_parseCount_id h.hole_cards
            (fun c hc => consumes_encHolePair
              (by simpa using (hhc c hc).1) (by simpa using (hhc c hc).2))
            (fun c hc => failsShort_encHolePair
              (by simpa using (hhc c hc).1) (by simpa using (hhc c hc).2)))
        case h2 =>
          apply failsShort_bind' (consumes_readLe (by simpa using hal))
            (failsShort_readLe 1 h.actions.length)
          case h2 =>
            apply failsShort_bind'
              (consumes_parseCount_id h.actions
                (fun a haa => consumes_encBinAction (ha a haa)))
              (failsShort_parseCount_id h.actions
                (fun a haa => consumes_encBinAction (ha a haa))
                (fun a haa => failsShort_encBinAction (ha a haa)))
            case h2 =>
              apply failsShort_bind'
                (consumes_readLe (by rw [pow256_8]; exact hts))
                (failsShort_readLe 8 h.timestamp)
              case h2 =>
                apply failsShort_bind'
                  (consumes_readLe (by rw [pow256_4]; exact hbd))
                  (failsShort_readLe 4 h.board)
                case h2 => exact failsShort_pure _
                case hz => rfl
              case hz => rfl
            case hz => rfl
          case hz => rfl
        case hz => rfl
      case hz => rfl
    case hz => rfl
  case hz => simp [encHand]

theorem toLe_one (n : Nat) : toLe 1 n = [n % 256] := rfl

theorem readLocation_append {loc : List Nat} (h0 : ∀ b ∈ loc, b ≠ 0)
    (hu : validUtf8 loc = true) (rest : List Nat) :
    readLocation (loc ++ ([0] ++ rest)) = .ok (loc, rest) := by
  have he : loc ++ ([0] ++ rest) = loc ++ 0 :: rest := by simp
  rw [he, readLocation_cons h0 hu]

theorem failsShort_encEvent {e : Event} (he : e.wf = true) :
    FailsShort parseEvent (encEvent e) := by
  cases e with
  | hand h =>
    unfold parseEvent
    apply failsShort_bind' (consumes_readLe (k := 1) (n := 0) (by norm_num))
      (failsShort_readLe 1 0)
    case h2 =>
      beta_reduce
      unfold parseEventBody
      rw [if_pos rfl]
      apply failsShort_bind' (consumes_encHand he) (failsShort_encHand he)
      case h2 => exact failsShort_pure _
      case hz => rfl
    case hz => simp [encEvent, toLe_one]
  | stackUpdate u =>
    simp only [Event.wf, Bool.and_eq_true, decide_eq_true_eq] at he
    obtain ⟨h1, h2⟩ := he
    unfold parseEvent
    apply failsShort_bind' (consumes_readLe (k := 1) (n := 1) (by norm_num))
      (failsShort_readLe 1 1)
    case h2 =>
      beta_reduce
      unfold parseEventBody
      rw [if_neg (by decide), if_pos rfl]
      apply failsShort_bind' (consumes_readLe (by simpa using h1))
        (failsShort_readLe 1 u.seat)
      case h2 =>
        apply failsShort_bind' (consumes_readLe (by rw [pow256_4]; exact h2))
          (failsShort_readLe 4 u.stack)
        case h2 => exact failsShort_pure _
        case hz => rfl
      case hz => rfl
    case hz => simp [encEvent, toLe_one]
  | seatUpdate u =>
    obtain ⟨seat, player⟩ := u
    simp only [Event.wf, Bool.and_eq_true, decide_eq_true_eq] at he
    obtain ⟨h1, h2⟩ := he
    cases player with
    | some p =>
      unfold parseEvent
      apply failsShort_bind' (consumes_readLe (k := 1) (n := 2) (by norm_num))
        (failsShort_readLe 1 2)
      case h2 =>
        beta_reduce
        unfold parseEventBody
        rw [if_neg (by decide), if_neg (by decide), if_pos rfl]
        apply failsShort_bind' (consumes_readLe (by simpa using h1))
          (failsShort_readLe 1 seat)
        case h2 =>
          apply failsShort_bind' (consumes_readLe (k := 1) (n := 1)
            (by norm_num)) (failsShort_readLe 1 1)
          case h2 =>
            beta_reduce
            unfold parseSeatPlayer
            rw [if_pos rfl]
            apply failsShort_bind' (consumes_encPlayer h2)
              (failsShort_encPlayer h2)
            case h2 => exact failsShort_pure _
            case hz => rfl
          case hz => rfl
        case hz => rfl
      case hz => simp [encEvent, toLe_one]
    | none =>
      unfold parseEvent
      apply failsShort_bind' (consumes_readLe (k := 1) (n := 2) (by norm_num))
        (failsShort_readLe 1 2)
      case h2 =>
        beta_reduce
        unfold parseEventBody
        rw [if_neg (by decide), if_neg (by decide), if_pos rfl]
        apply failsShort_bind' (consumes_readLe (by simpa using h1))
          (failsShort_readLe 1 seat)
        case h2 =>
          apply failsShort_bind' (consumes_readLe (k := 1) (n := 0)
            (by norm_num)) (failsShort_readLe 1 0)
          case h2 =>
            beta_reduce
            unfold parseSeatPlayer
            rw [if_neg (by decide), if_pos rfl]
            exact failsShort_pure _
          case hz => rfl
        case hz => rfl
      case hz => simp [encEvent, toLe_one]

theorem consumes_encTable {t : Table} (ht : t.wf = true) :
    Consumes parseTable (encTable t) t := by
  simp only [Table.wf, Bool.and_eq_true, decide_eq_true_eq,
    List.all_eq_true] at ht
  obtain ⟨⟨⟨⟨⟨⟨⟨hid, hloc⟩, hutf⟩, htsz⟩, hpl⟩, hp⟩, hel⟩, hev⟩ := ht
  intro rest
  simp only [encTable, List.append_assoc]
  unfold parseTable
  rw [Parser.bind_ok (consumes_readLe (by rw [pow256_4]; exact hid) _)]
  rw [Parser.bind_ok (readLocation_append
    (fun b hb => by simpa using ((hloc b hb).2)) hutf _)]
  unfold parseTableRest
  rw [Parser.bind_ok (consumes_readLe (by simpa using htsz) _)]
  rw [Parser.bind_ok (consumes_readLe (by simpa using hpl) _)]
  rw [Parser.bind_ok (consumes_parseCount_id t.initial_context
    (fun q hq => consumes_encPlayer (hp q hq)) _)]
  rw [Parser.bind_ok (consumes_readLe (by rw [pow256_4]; exact hel) _)]
  rw [Parser.bind_ok (consumes_parseCount_id t.events
    (fun ev hevm => consumes_encEvent (hev ev hevm)) _)]
  rfl

theorem failsShort_encTable {t : Table} (ht : t.wf = true) :
    FailsShort parseTable (encTable t) := by
  simp only [Table.wf, Bool.and_eq_true, decide_eq_true_eq,
    List.all_eq_true] at ht
  obtain ⟨⟨⟨⟨⟨⟨⟨hid, hloc⟩, hutf⟩, htsz⟩, hpl⟩, hp⟩, hel⟩, hev⟩ := ht
  have h0 : ∀ b ∈ t.location, b ≠ 0 := fun b hb => by
    simpa using ((hloc b hb).2)
  unfold parseTable
  apply failsShort_bind' (consumes_readLe (by rw [pow256_4]; exact hid))
    (failsShort_readLe 4 t.id)
  case h2 =>
    apply failsShort_bind' (consumes_readLocation h0 hutf)
      (failsShort_readLocation h0)
    case h2 =>
      beta_reduce
      unfold parseTableRest
      apply failsShort_bind' (consumes_readLe (by simpa using htsz))
        (failsShort_readLe 1 t.table_size)
      case h2 =>
        apply failsShort_bind' (consumes_readLe (by simpa using hpl))
          (failsShort_readLe 1 t.initial_context.length)
        case h2 =>
          apply failsShort_bind'
            (consumes_parseCount_id t.initial_context
              (fun q hq => consumes_encPlayer (hp q hq)))
            (failsShort_parseCount_id t.initial_context
              (fun q hq => consumes_encPlayer (hp q hq))
              (fun q hq => failsShort_encPlayer (hp q hq)))
          case h2 =>
            apply failsShort_bind'
              (consumes_readLe (by rw [pow256_4]; exact hel))
              (failsShort_readLe 4 t.events.length)
            case h2 =>
              apply failsShort_bind'
                (consumes_parseCount_id t.events
                  (fun ev hm => consumes_encEvent (hev ev hm)))
                (failsShort_parseCount_id t.events
                  (fun ev hm => consumes_encEvent (hev ev hm))
                  (fun ev hm => failsShort_encEvent (hev ev hm)))
              case h2 => exact failsShort_pure _
              case hz => rfl
            case hz => rfl
          case hz => rfl
        case hz => rfl
      case hz => rfl
    case hz => rfl
  case hz => simp [encTable]

theorem consumes_write {s : HeirBin} (hs : s.wf = true) :
    Consumes HeirBin.read_from_file (HeirBin.write_to_file s) s := by
  simp only [HeirBin.wf, Bool.and_eq_true, decide_eq_true_eq,
    List.all_eq_true] at hs
  obtain ⟨⟨hsid, htl⟩, ht⟩ := hs
  intro rest
  simp only [HeirBin.write_to_file, List.append_assoc]
  unfold HeirBin.read_from_file
  rw [Parser.bind_ok (consumes_readBytes (show MAGIC.length = 4 from rfl) _)]
  unfold afterMagic
  rw [if_pos rfl]
  rw [show ([VERSION] : List Nat) = toLe 1 0 from rfl]
  rw [Parser.bind_ok (consumes_readLe (by norm_num) _)]
  unfold afterVersion
  rw [if_pos (show (0 : Nat) = VERSION from rfl)]
  rw [Parser.bind_ok (consumes_readLe (by rw [pow256_4]; exact hsid) _)]
  unfold parseSessionBody
  rw [Parser.bind_ok (consumes_readLe (by simpa using htl) _)]
  rw [Parser.bind_ok (consumes_parseCount_id s.tables
    (fun t hm => consumes_encTable (ht t hm)) _)]
  rfl

theorem failsShort_write {s : HeirBin} (hs : s.wf = true) :
    FailsShort HeirBin.read_from_file (HeirBin.write_to_file s) := by
  simp only [HeirBin.wf, Bool.and_eq_true, decide_eq_true_eq,
    List.all_eq_true] at hs
  obtain ⟨⟨hsid, htl⟩, ht⟩ := hs
  unfold HeirBin.read_from_file
  apply failsShort_bind' (consumes_readBytes (show MAGIC.length = 4 from rfl))
    (failsShort_readBytes (show MAGIC.length = 4 from rfl))
  case h2 =>
    beta_reduce
    unfold afterMagic
    rw [if_pos rfl]
    apply failsShort_bind' (consumes_readLe (k := 1) (n := 0) (by norm_num))
      (failsShort_readLe 1 0)
    case h2 =>
      beta_reduce
      unfold afterVersion
      rw [if_pos (show (0 : Nat) = VERSION from rfl)]
      apply failsShort_bind' (consumes_readLe (by rw [pow256_4]; exact hsid))
        (failsShort_readLe 4 s.session_id)
      case h2 =>
        beta_reduce
        unfold parseSessionBody
        apply failsShort_bind' (consumes_readLe (by simpa using htl))
          (failsShort_readLe 1 s.tables.length)
        case h2 =>
          apply failsShort_bind'
            (consumes_parseCount_id s.tables
              (fun t hm => consumes_encTable (ht t hm)))
            (failsShort_parseCount_id s.tables
              (fun t hm => consumes_encTable (ht t hm))
              (fun t hm => failsShort_encTable (ht t hm)))
          case h2 => exact failsShort_pure _
          case hz => rfl
        case hz => rfl
      case hz => rfl
    case hz => rfl
  case hz => simp [HeirBin.write_to_file, toLe_one, VERSION]

/-! ## Scalar codecs — `types/card.rs`, `types/action.rs`,
`types/version.rs`, `types/board.rs` -/

/-- `CardError` of `card.rs` (the declared error type of `Card::from_u8`). -/
inductive CardError where
  | invalidU8AsCard : Nat → CardError
  deriving DecidableEq, Repr

/-- A `Card` of `card.rs`: a `#[repr(u8)]` enum whose 54 variants carry the
tags `0..=53` (52 rank/suit cards, `Unknown = 52`, `Xx = 53`), modelled by
its tag. -/
def Card : Type := {n : Nat // n ≤ 53}

instance : DecidableEq Card := Subtype.instDecidableEq

def Card.to_u8 (c : Card) : Nat := c.val

/-- `Card::from_u8`: accepts exactly the tags `0..=53`. -/
def Card.from_u8 (v : Nat) : Except CardError Card :=
  if h : v ≤ 53 then .ok ⟨v, h⟩ else .error (.invalidU8AsCard v)

def Card.Xx : Card := ⟨53, by norm_num⟩
def Card.Unknown : Card := ⟨52, by norm_num⟩
def Card.AceClubs : Card := ⟨0, by norm_num⟩

/-- `ActionError` of `action.rs`. -/
inductive ActionError where
  | invalidU8AsActionType : Nat → ActionError
  | centsExceedsRange : Nat → ActionError
  deriving DecidableEq, Repr

inductive ActionType where
  | CheckFold
  | Call
  | Bet
  | Raise
  deriving DecidableEq, Repr

def ActionType.to_u8 : ActionType → Nat
  | .CheckFold => 0
  | .Call => 1
  | .Bet => 2
  | .Raise => 3

def ActionType.from_u8 (v : Nat) : Except ActionError ActionType :=
  if v = 0 then .ok .CheckFold
  else if v = 1 then .ok .Call
  else if v = 2 then .ok .Bet
  else if v = 3 then .ok .Raise
  else .error (.invalidU8AsActionType v)

/-- `ActionType::from_u8_unchecked`: the transmute of a 2-bit value (total
on `0..=3`; out-of-range inputs are undefined behaviour in the source). -/
def ActionType.from_u8_unchecked (v : Nat) : ActionType :=
  if v = 0 then .CheckFold
  else if v = 1 then .Call
  else if v = 2 then .Bet
  else .Raise

/-- `Action` of `action.rs`: one `u32`, kind in the top 2 bits, cents in
the low 30. -/
structure Action where
  val : Nat
  deriving DecidableEq, Repr

/-- `Action::new` with bounds checking. -/
def Action.new (t : ActionType) (cents : Nat) : Except ActionError Action :=
  if cents ≥ 1 <<< 30 then .error (.centsExceedsRange cents)
  else .ok ⟨(t.to_u8 <<< 30) ||| cents⟩

def Action.action_type (a : Action) : ActionType :=
  ActionType.from_u8_unchecked (a.val >>> 30)

def Action.cents (a : Action) : Nat := a.val &&& 0x3FFFFFFF

/-- `VersionError` of `version.rs`. -/
inductive VersionError where
  | minorVersionExceedsRange : Nat → VersionError
  | majorVersionExceedsRange : Nat → VersionError
  deriving DecidableEq, Repr

/-- `io::Error` as produced by `Version::deserialize`: a short read, or an
`InvalidData` wrapping of a `VersionError`. -/
inductive VersionIoError where
  | ioEof
  | invalidData : VersionError → VersionIoError
  deriving DecidableEq, Repr

/-- `Version` of `version.rs`: one byte, major in the high nibble. -/
structure Version where
  val : Nat
  deriving DecidableEq, Repr

def Version.new (major minor : Nat) : Except VersionError Version :=
  if major ≥ 16 then .error (.majorVersionExceedsRange major)
  else if minor ≥ 16 then .error (.minorVersionExceedsRange minor)
  else .ok ⟨(major <<< 4) ||| (minor &&& 0x0F)⟩

def Version.major (v : Version) : Nat := v.val >>> 4

def Version.minor (v : Version) : Nat := v.val &&& 0x0F

/-- `Version::deserialize`: read one byte, then re-validate both nibbles. -/
def Version.deserialize (l : List Nat) :
    Except VersionIoError (Version × List Nat) :=
  match l with
  | [] => .error .ioEof
  | b :: rest =>
    if (Version.mk b).major ≥ 16 then
      .error (.invalidData (.majorVersionExceedsRange (Version.mk b).major))
    else if (Version.mk b).minor ≥ 16 then
      .error (.invalidData (.minorVersionExceedsRange (Version.mk b).minor))
    else .ok (Version.mk b, rest)

/-- Error kinds of `board.rs` operations: index out of bounds
(`InvalidInput`), or an invalid card tag surfaced by `Card::from_u8`. -/
inductive BoardError where
  | indexOutOfBounds
  | invalidCard : Nat → BoardError
  deriving DecidableEq, Repr

/-- `Board` of `board.rs`: one `u32`, five 6-bit card tags. -/
structure Board where
  val : Nat
  deriving DecidableEq, Repr

/-- `Board::new`: all five slots hold `Xx` (tag 53). -/
def Board.new : Board :=
  ⟨(53 <<< 24) ||| (53 <<< 18) ||| (53 <<< 12) ||| (53 <<< 6) ||| 53⟩

/-- `Board::set_card`: a `&mut self` method returning `io::Result<()>`,
modelled as the result paired with the post-state. On the out-of-bounds
error path the source returns before touching `self.0`, so the board
comes back unchanged; otherwise `&=` with the complement of the slot
mask (u32 complement, i.e. xor with `0xFFFFFFFF`), then `|=` the new
6-bit value. -/
def Board.set_card (b : Board) (index : Nat) (card : Card) :
    Except BoardError Unit × Board :=
  if index ≥ 5 then (.error .indexOutOfBounds, b)
  else (.ok (), ⟨(b.val &&& (0xFFFFFFFF ^^^ (0x3F <<< (index * 6)))) |||
    ((card.to_u8 &&& 0x3F) <<< (index * 6))⟩)

/-- `Board::get_card`: extract the 6-bit tag and re-validate it through
`Card::from_u8`. -/
def Board.get_card (b : Board) (index : Nat) : Except BoardError Card :=
  if index ≥ 5 then .error .indexOutOfBounds
  else
    match Card.from_u8 ((b.val >>> (index * 6)) &&& 0x3F) with
    | .ok c => .ok c
    | .error (.invalidU8AsCard v) => .error (.invalidCard v)

/-! ## Bit-packing lemmas -/

theorem lor_shift_add {q c w : Nat} (hc : c < 2 ^ w) :
    (q <<< w) ||| c = q * 2 ^ w + c := by
  apply Nat.eq_of_testBit_eq
  intro i
  rw [Nat.mul_comm q (2 ^ w), Nat.testBit_or, Nat.testBit_shiftLeft,
    Nat.testBit_mul_pow_two_add _ hc]
  by_cases h : w ≤ i
  · have hci : c.testBit i = false :=
      Nat.testBit_lt_two_pow
        (lt_of_lt_of_le hc (Nat.pow_le_pow_right (by norm_num) h))
    simp [h, hci, Nat.not_lt.mpr h]
  · simp [h, Nat.lt_of_not_le h]

theorem pack_shiftRight {q c w : Nat} (hc : c < 2 ^ w) :
    ((q <<< w) ||| c) >>> w = q := by
  rw [lor_shift_add hc, Nat.shiftRight_eq_div_pow, Nat.mul_comm q,
    Nat.mul_add_div (Nat.pos_pow_of_pos w (by norm_num)),
    Nat.div_eq_of_lt hc, Nat.add_zero]

theorem pack_land {q c w : Nat} (hc : c < 2 ^ w) :
    ((q <<< w) ||| c) &&& (2 ^ w - 1) = c := by
  rw [lor_shift_add hc, Nat.and_pow_two_sub_one_eq_mod, Nat.mul_comm q,
    Nat.mul_add_mod, Nat.mod_eq_of_lt hc]

/-- Writing a 6-bit slot of a packed board leaves every other slot's
extracted 6-bit group unchanged. -/
theorem board_mask_frame {val c : Nat} (i j : Nat) (hi : i < 5) (hj : j < 5)
    (hne : j ≠ i) (hc : c < 64) :
    (((val &&& (0xFFFFFFFF ^^^ (0x3F <<< (i * 6)))) ||| (c <<< (i * 6))) >>>
        (j * 6)) &&& 0x3F =
      (val >>> (j * 6)) &&& 0x3F := by
  apply Nat.eq_of_testBit_eq
  intro k
  rw [show (0x3F : Nat) = 2 ^ 6 - 1 from by norm_num,
    show (0xFFFFFFFF : Nat) = 2 ^ 32 - 1 from by norm_num]
  simp only [Nat.testBit_and, Nat.testBit_or, Nat.testBit_xor,
    Nat.testBit_shiftRight, Nat.testBit_shiftLeft, Nat.testBit_two_pow_sub_one]
  by_cases hk : k < 6
  · have hm32 : j * 6 + k < 32 := by omega
    by_cases hij : i < j
    · have hS : i * 6 ≤ j * 6 + k := by omega
      have h6 : 6 ≤ j * 6 + k - i * 6 := by omega
      have hc' : c < 2 ^ (j * 6 + k - i * 6) :=
        lt_of_lt_of_le hc
          (le_trans (by norm_num) (Nat.pow_le_pow_right (by norm_num) h6))
      have h63 : ¬ (j * 6 + k - i * 6 < 6) := by omega
      simp [hk, hm32, hS, Nat.testBit_lt_two_pow hc', h63]
    · have hS : ¬ (i * 6 ≤ j * 6 + k) := by omega
      simp [hk, hm32, hS]
  · simp [hk]

/-! ## Claim theorems for the scalar codecs -/

theorem action_new_eq (t : ActionType) (cents : Nat) :
    Action.new t cents =
      if cents ≥ 2 ^ 30 then .error (.centsExceedsRange cents)
      else .ok ⟨(t.to_u8 <<< 30) ||| cents⟩ := by
  rw [Action.new, Nat.one_shiftLeft]

theorem from_u8_unchecked_to_u8 (t : ActionType) :
    ActionType.from_u8_unchecked t.to_u8 = t := by
  cases t <;> rfl

/-- C5: `Action::new(action_type, cents)` fails if and only if
`cents ≥ 2^30`, and on success the stored word packs the 2-bit kind above
the 30-bit cents field, with both accessors returning the original
values unchanged. -/
theorem action_new_bounds (t : ActionType) (cents : Nat)
    (hc : cents < 2 ^ 32) :
    ((Action.new t cents).isOk = true ↔ cents < 2 ^ 30) ∧
    ∀ a, Action.new t cents = .ok a →
      a.val = t.to_u8 * 2 ^ 30 + cents ∧ a.action_type = t ∧
      a.cents = cents := by
  rw [action_new_eq]
  constructor
  · by_cases h : 2 ^ 30 ≤ cents
    · rw [if_pos h]
      simp [Except.isOk, Except.toBool]
      omega
    · rw [if_neg h]
      simp [Except.isOk, Except.toBool]
      omega
  · intro a ha
    by_cases h : 2 ^ 30 ≤ cents
    · rw [if_pos h] at ha
      simp at ha
    · rw [if_neg h] at ha
      have hlt : cents < 2 ^ 30 := by omega
      simp only [Except.ok.injEq] at ha
      subst ha
      refine ⟨lor_shift_add hlt, ?_, ?_⟩
      · show ActionType.from_u8_unchecked
          (((t.to_u8 <<< 30) ||| cents) >>> 30) = t
        rw [pack_shiftRight hlt, from_u8_unchecked_to_u8]
      · show ((t.to_u8 <<< 30) ||| cents) &&& 0x3FFFFFFF = cents
        rw [show (0x3FFFFFFF : Nat) = 2 ^ 30 - 1 from by norm_num,
          pack_land hlt]

/-- Witness for C5 at the two spec boundaries: `2^30 − 1` succeeds and
`2^30` fails. -/
theorem action_new_bounds_witness :
    ((2 ^ 30 - 1 : Nat) < 2 ^ 32 ∧
      ((Action.new .Raise (2 ^ 30 - 1)).isOk = true ↔
        (2 ^ 30 - 1 : Nat) < 2 ^ 30)) ∧
    ((2 ^ 30 : Nat) < 2 ^ 32 ∧
      ((Action.new .Bet (2 ^ 30)).isOk = true ↔
        (2 ^ 30 : Nat) < 2 ^ 30)) :=
  ⟨⟨by norm_num, (action_new_bounds .Raise (2 ^ 30 - 1) (by norm_num)).1⟩,
   ⟨by norm_num, (action_new_bounds .Bet (2 ^ 30) (by norm_num)).1⟩⟩

/-- C6: `Version::new(major, minor)` fails if and only if `major ≥ 16` or
`minor ≥ 16`, and on success `major()` and `minor()` return exactly the
given values. -/
theorem version_new_bounds (major minor : Nat) (hM : major < 256)
    (hm : minor < 256) :
    ((Version.new major minor).isOk = true ↔ major < 16 ∧ minor < 16) ∧
    ∀ v, Version.new major minor = .ok v →
      v.major = major ∧ v.minor = minor := by
  constructor
  · unfold Version.new
    by_cases h1 : 16 ≤ major
    · rw [if_pos h1]
      simp [Except.isOk, Except.toBool]
      omega
    · rw [if_neg h1]
      by_cases h2 : 16 ≤ minor
      · rw [if_pos h2]
        simp [Except.isOk, Except.toBool]
        omega
      · rw [if_neg h2]
        simp [Except.isOk, Except.toBool]
        omega
  · intro v hv
    unfold Version.new at hv
    by_cases h1 : 16 ≤ major
    · rw [if_pos h1] at hv
      simp at hv
    · rw [if_neg h1] at hv
      by_cases h2 : 16 ≤ minor
      · rw [if_pos h2] at hv
        simp at hv
      · rw [if_neg h2] at hv
        simp only [Except.ok.injEq] at hv
        subst hv
        have hmin : minor &&& 0x0F = minor := by
          rw [show (0x0F : Nat) = 2 ^ 4 - 1 from by norm_num,
            Nat.and_pow_two_sub_one_eq_mod, Nat.mod_eq_of_lt (by omega)]
        have hlt : minor &&& 0x0F < 2 ^ 4 := by rw [hmin]; omega
        constructor
        · show ((major <<< 4) ||| (minor &&& 0x0F)) >>> 4 = major
          rw [pack_shiftRight hlt]
        · show ((major <<< 4) ||| (minor &&& 0x0F)) &&& 0x0F = minor
          rw [hmin, show (0x0F : Nat) = 2 ^ 4 - 1 from by norm_num,
            pack_land (show minor < 2 ^ 4 by omega)]

/-- Witness for C6 at the boundaries `15` and `16`. -/
theorem version_new_bounds_witness :
    ((15 : Nat) < 256 ∧
      ((Version.new 15 15).isOk = true ↔ (15 : Nat) < 16 ∧ (15 : Nat) < 16)) ∧
    ((16 : Nat) < 256 ∧
      ((Version.new 16 0).isOk = true ↔ (16 : Nat) < 16 ∧ (0 : Nat) < 16)) :=
  ⟨⟨by norm_num, (version_new_bounds 15 15 (by norm_num) (by norm_num)).1⟩,
   ⟨by norm_num, (version_new_bounds 16 0 (by norm_num) (by norm_num)).1⟩⟩

/-- C7: `Version::deserialize` succeeds on every possible single input
byte — the decode-time range re-checks are unreachable, since both
fields come out of a 4-bit shift/mask of one byte. -/
theorem version_deserialize_total (b : Nat) (hb : b < 256) :
    Version.deserialize [b] = .ok (⟨b⟩, []) := by
  have hmaj : (Version.mk b).major < 16 := by
    show b >>> 4 < 16
    rw [Nat.shiftRight_eq_div_pow]
    omega
  have hmin : (Version.mk b).minor < 16 := by
    show b &&& 0x0F < 16
    rw [show (0x0F : Nat) = 2 ^ 4 - 1 from by norm_num,
      Nat.and_pow_two_sub_one_eq_mod]
    exact Nat.mod_lt _ (by norm_num)
  simp only [Version.deserialize]
  rw [if_neg (by omega), if_neg (by omega)]

/-- Witness for C7 at the all-ones byte `0xFF`. -/
theorem version_deserialize_total_witness :
    (0xFF : Nat) < 256 ∧ Version.deserialize [0xFF] = .ok (⟨0xFF⟩, []) :=
  ⟨by norm_num, version_deserialize_total 0xFF (by norm_num)⟩

/-- C8: a fresh `Board` reports `Xx` in every slot below 5; `set_card`
succeeds exactly on slot indices below 5 and leaves the board unmodified
when it fails; and a successful `set_card` leaves every other slot's
card unchanged. -/
theorem board_sentinel_frame_bounds (b : Board) (i j : Nat) (c : Card)
    (hb : b.val < 2 ^ 32) (hj : j < 5) :
    Board.new.get_card j = .ok Card.Xx ∧
    ((b.set_card i c).1.isOk = true ↔ i < 5) ∧
    ((b.set_card i c).1.isOk = false → (b.set_card i c).2 = b) ∧
    (i < 5 → j ≠ i →
      (b.set_card i c).2.get_card j = b.get_card j) := by
  refine ⟨?_, ?_, ?_, ?_⟩
  · interval_cases j <;> decide
  · unfold Board.set_card
    by_cases h : 5 ≤ i
    · rw [if_pos h]
      simp [Except.isOk, Except.toBool]
      omega
    · rw [if_neg h]
      simp [Except.isOk, Except.toBool]
      omega
  · intro hfail
    unfold Board.set_card at hfail ⊢
    by_cases h : 5 ≤ i
    · rw [if_pos h]
    · rw [if_neg h] at hfail
      simp [Except.isOk, Except.toBool] at hfail
  · intro hi hne
    unfold Board.set_card
    rw [if_neg (by omega)]
    have hc : c.to_u8 &&& 0x3F < 64 := by
      rw [show (0x3F : Nat) = 2 ^ 6 - 1 from by norm_num,
        Nat.and_pow_two_sub_one_eq_mod]
      exact Nat.mod_lt _ (by norm_num)
    unfold Board.get_card
    rw [if_neg (by omega), if_neg (by omega)]
    rw [board_mask_frame i j hi hj hne hc]

/-- Witness for C8: set slot 2 of a fresh board and look at slot 0. -/
theorem board_sentinel_frame_bounds_witness :
    Board.new.val < 2 ^ 32 ∧ (0 : Nat) < 5 ∧
    (Board.new.get_card 0 = .ok Card.Xx ∧
     ((Board.new.set_card 2 Card.AceClubs).1.isOk = true ↔ 2 < 5) ∧
     ((Board.new.set_card 2 Card.AceClubs).1.isOk = false →
        (Board.new.set_card 2 Card.AceClubs).2 = Board.new) ∧
     (2 < 5 → 0 ≠ 2 →
        (Board.new.set_card 2 Card.AceClubs).2.get_card 0 =
          Board.new.get_card 0)) :=
  ⟨by decide, by decide,
   board_sentinel_frame_bounds Board.new 2 0 Card.AceClubs
     (by decide) (by decide)⟩

/-! ## Claim theorems for the frame codec -/

/-- The concrete session of the source's own test fixture (§8 of the
spec): one table, two seated players, a hand, a stack update, and a seat
update. -/
def sampleSession : HeirBin :=
  { session_id := 1,
    tables := [
      { id := 1,
        location := [0x43, 0x61, 0x73, 0x69, 0x6E, 0x6F, 0x31],
        table_size := 6,
        initial_context := [⟨1, 10000⟩, ⟨2, 5000⟩],
        events := [
          .hand ⟨1, 0, [(0x2C, 0x3D), (0x44, 0x55)],
            [⟨0x01, 100⟩, ⟨0x12, 200⟩], 1621234567, 12345⟩,
          .stackUpdate ⟨0, 9900⟩,
          .seatUpdate ⟨2, some ⟨3, 7500⟩⟩] }] }

/-- C1: decoding the bytes produced by encoding any well-formed session
yields a value equal in every field to the original, with the entire
stream consumed, so table, player, and event order are preserved
exactly. -/
theorem round_trip (s : HeirBin) (hs : s.wf = true) :
    HeirBin.read_from_file (HeirBin.write_to_file s) = .ok (s, []) := by
  have h := consumes_write hs []
  rw [List.append_nil] at h
  exact h

/-- Witness for C1 on the test-fixture session. -/
theorem round_trip_witness :
    sampleSession.wf = true ∧
    HeirBin.read_from_file (HeirBin.write_to_file sampleSession) =
      .ok (sampleSession, []) :=
  ⟨by decide, round_trip sampleSession (by decide)⟩

/-- C3: decoding any proper truncation of a well-formed encoded stream
fails with the short-read error; no `Session` is ever returned from a
truncated stream. -/
theorem truncation_fails (s : HeirBin) (hs : s.wf = true) (n : Nat)
    (hn : n < (HeirBin.write_to_file s).length) :
    HeirBin.read_from_file ((HeirBin.write_to_file s).take n) =
      .error .eof :=
  failsShort_write hs n hn

/-- Witness for C3: the fixture stream truncated in the middle of the
hand event. -/
theorem truncation_fails_witness :
    sampleSession.wf = true ∧
    30 < (HeirBin.write_to_file sampleSession).length ∧
    HeirBin.read_from_file ((HeirBin.write_to_file sampleSession).take 30) =
      .error .eof :=
  ⟨by decide, by decide,
   truncation_fails sampleSession (by decide) 30 (by decide)⟩

/-- C4: changing any one of the first four bytes of an encoded stream to
any different value makes decoding fail with the bad-magic error, before
any table is parsed. -/
theorem magic_flip_fails (s : HeirBin) (i v : Nat) (hi : i < 4)
    (hv : v ≠ (HeirBin.write_to_file s).getD i 0) :
    HeirBin.read_from_file ((HeirBin.write_to_file s).set i v) =
      .error .invalidMagic := by
  have hw : HeirBin.write_to_file s =
      MAGIC ++ ([VERSION] ++ toLe 4 s.session_id ++
        toLe 1 s.tables.length ++ (s.tables.map encTable).flatten) := by
    simp [HeirBin.write_to_file]
  rw [hw] at hv ⊢
  set R : List Nat := [VERSION] ++ toLe 4 s.session_id ++
    toLe 1 s.tables.length ++ (s.tables.map encTable).flatten with hR
  have hset : (MAGIC ++ R).set i v = MAGIC.set i v ++ R :=
    List.set_append_left _ _ (by simp [MAGIC]; omega)
  have hgetD : (MAGIC ++ R).getD i 0 = MAGIC.getD i 0 := by
    rw [List.getD_append]
    simp [MAGIC]
    omega
  rw [hgetD] at hv
  rw [hset]
  have hlen : (MAGIC.set i v).length = 4 := by simp [MAGIC]
  unfold HeirBin.read_from_file
  rw [Parser.bind_ok (consumes_readBytes hlen _)]
  unfold afterMagic
  have hne : MAGIC.set i v ≠ MAGIC := by
    intro heq
    apply hv
    have hlt : i < (MAGIC.set i v).length := by simp [MAGIC]; omega
    have hgd := congrArg (fun l => l.getD i 0) heq
    simp only at hgd
    rw [List.getD_eq_getElem _ _ hlt, List.getElem_set_self] at hgd
    exact hgd
  rw [if_neg hne]
  rfl

/-- Witness for C4: zero out the second magic byte of the fixture
stream. -/
theorem magic_flip_fails_witness :
    (1 : Nat) < 4 ∧
    (9 : Nat) ≠ (HeirBin.write_to_file sampleSession).getD 1 0 ∧
    HeirBin.read_from_file ((HeirBin.write_to_file sampleSession).set 1 9) =
      .error .invalidMagic :=
  ⟨by decide, by decide,
   magic_flip_fails sampleSession 1 9 (by decide) (by decide)⟩

/-- A session with 300 tables, for exercising count narrowing. -/
def bigSession : HeirBin :=
  ⟨0, List.replicate 300 ⟨0, [], 0, [], []⟩⟩

/-- A table with 300 initial players. -/
def bigTable : Table :=
  ⟨0, [], 0, List.replicate 300 ⟨0, 0⟩, []⟩

/-- A hand with 300 hole-card pairs and 300 actions. -/
def bigHand : Hand :=
  ⟨0, 0, List.replicate 300 (0, 0), List.replicate 300 ⟨0, 0⟩, 0, 0⟩

/-- C9: encoding never fails on oversized counts — `write_to_file` is a
total function of the session — and the one-byte count fields (tables,
players, hole-card pairs, actions) are written as the length reduced
modulo 256, which differs from the true length whenever it exceeds
255. -/
theorem count_bytes_narrowed (s : HeirBin) (t : Table) (h : Hand)
    (hs : 255 < s.tables.length) (hpc : 255 < t.initial_context.length)
    (hhc : 255 < h.hole_cards.length) (hac : 255 < h.actions.length) :
    (HeirBin.write_to_file s =
        MAGIC ++ [VERSION] ++ toLe 4 s.session_id ++
          [s.tables.length % 256] ++ (s.tables.map encTable).flatten ∧
      s.tables.length % 256 ≠ s.tables.length) ∧
    (encTable t = toLe 4 t.id ++ t.location ++ [0] ++ toLe 1 t.table_size ++
        [t.initial_context.length % 256] ++
        (t.initial_context.map encPlayer).flatten ++
        toLe 4 t.events.length ++ (t.events.map encEvent).flatten ∧
      t.initial_context.length % 256 ≠ t.initial_context.length) ∧
    (encHand h = toLe 4 h.id ++ toLe 1 h.button_position ++
        [h.hole_cards.length % 256] ++
        (h.hole_cards.map encHolePair).flatten ++
        [h.actions.length % 256] ++ (h.actions.map encBinAction).flatten ++
        toLe 8 h.timestamp ++ toLe 4 h.board ∧
      h.hole_cards.length % 256 ≠ h.hole_cards.length ∧
      h.actions.length % 256 ≠ h.actions.length) := by
  have hmod : ∀ m : Nat, 255 < m → m % 256 ≠ m := by
    intro m hm
    have := Nat.mod_lt m (show 0 < 256 by norm_num)
    omega
  exact ⟨⟨rfl, hmod _ hs⟩, ⟨rfl, hmod _ hpc⟩,
    rfl, hmod _ hhc, hmod _ hac⟩

set_option maxRecDepth 4000 in
/-- Witness for C9 on 300-element fixtures. -/
theorem count_bytes_narrowed_witness :
    (255 < bigSession.tables.length ∧
     255 < bigTable.initial_context.length ∧
     255 < bigHand.hole_cards.length ∧ 255 < bigHand.actions.length) ∧
    bigSession.tables.length % 256 ≠ bigSession.tables.length :=
  ⟨⟨by decide, by decide, by decide, by decide⟩,
   ((count_bytes_narrowed bigSession bigTable bigHand (by decide)
      (by decide) (by decide) (by decide)).1).2⟩

/-- A well-formed 43-byte stream whose single Hand event carries the
hole-card byte `b` and a packed board whose first 6-bit group is tag 54:
header, one table with empty location, no players, one hand event with
one hole-card pair and no actions. -/
def cexStream (b : Nat) : List Nat :=
  [0x48, 0x45, 0x49, 0x52, 0x00,
   0, 0, 0, 0,
   1,
   0, 0, 0, 0,
   0,
   0,
   0,
   1, 0, 0, 0,
   0,
   0, 0, 0, 0,
   0,
   1,
   b, 0,
   0,
   0, 0, 0, 0, 0, 0, 0, 0,
   54, 0, 0, 0]

/-- The session value `read_from_file` produces from `cexStream b`. -/
def cexSession (b : Nat) : HeirBin :=
  ⟨0, [⟨0, [], 0, [], [.hand ⟨0, 0, [(b, 0)], [], 0, 54⟩]⟩]⟩

theorem validUtf8_nil : validUtf8 [] = true := rfl

/-- Counterexample to C2 as stated: a stream whose Hand event holds the
hole-card byte 54 (an invalid card tag, > 53) and a board word whose
first 6-bit group is 54 decodes successfully — `read_from_file` does not
fail with any format error. -/
theorem card_tag_cex :
    HeirBin.read_from_file (cexStream 54) = .ok (cexSession 54, []) := by
  decide

/-- C2 amended: `Card::from_u8` rejects every tag above 53 with the
distinct card error, but `read_from_file` never invokes it — a Hand
event's hole-card byte and packed board word are read raw, so any byte
value, including invalid card tags, is carried unchanged into the
decoded session. -/
theorem card_tag_not_validated (b : Nat) (hb : 53 < b) :
    Card.from_u8 b = .error (.invalidU8AsCard b) ∧
    HeirBin.read_from_file (cexStream b) = .ok (cexSession b, []) := by
  constructor
  · unfold Card.from_u8
    rw [dif_neg (by omega)]
  · simp [cexStream, cexSession, HeirBin.read_from_file, afterMagic,
      afterVersion, parseSessionBody, parseTable, parseTableRest, parseEvent,
      parseEventBody, parseHand, parseHolePair, parseCount, readLocation,
      takeUntilZero, readLe, readBytes, fromLe, toLe, Parser.bindP,
      Parser.pureP, Parser.fail, MAGIC, VERSION, validUtf8_nil, Bind.bind,
      Except.bind, Pure.pure]

/-- Witness for the amended C2 at the first invalid tag, 54. -/
theorem card_tag_not_validated_witness :
    (53 : Nat) < 54 ∧
    (Card.from_u8 54 = .error (.invalidU8AsCard 54) ∧
     HeirBin.read_from_file (cexStream 54) = .ok (cexSession 54, [])) :=
  ⟨by decide, card_tag_not_validated 54 (by decide)⟩

/-! ## NUL bytes inside a location string

A decoded location can never contain a NUL: the byte loop stops at the
first zero. So a session holding a table whose location has an interior
NUL is outside the image of the decoder altogether. -/

theorem readLe_toLe_raw (k n : Nat) (rest : List Nat) :
    readLe k (toLe k n ++ rest) = .ok (fromLe (toLe k n), rest) := by
  unfold readLe
  rw [Parser.bind_ok (consumes_readBytes (toLe_length k n) rest)]
  rfl

theorem parseCount_succ_ok {p : Parser α} {n : Nat} {l : List Nat}
    {as : List α} {rem : List Nat}
    (h : parseCount (n + 1) p l = .ok (as, rem)) :
    ∃ a l1 as', p l = .ok (a, l1) ∧ parseCount n p l1 = .ok (as', rem) ∧
      as = a :: as' := by
  simp only [parseCount] at h
  rw [Parser.bind_ok_iff] at h
  obtain ⟨a, l1, h1, h2⟩ := h
  rw [Parser.bind_ok_iff] at h2
  obtain ⟨as', l2, h3, h4⟩ := h2
  rw [Parser.pure_def] at h4
  simp only [Except.ok.injEq, Prod.mk.injEq] at h4
  obtain ⟨h5, h6⟩ := h4
  refine ⟨a, l1, as', h1, ?_, h5.symm⟩
  rw [← h6]
  exact h3

theorem parseCount_zero_ok {p : Parser α} {l : List Nat} {as : List α}
    {rem : List Nat} (h : parseCount 0 p l = .ok (as, rem)) : as = [] := by
  simp only [parseCount, Parser.pure_def] at h
  simp only [Except.ok.injEq, Prod.mk.injEq] at h
  exact h.1.symm

theorem parseTableRest_ok {id : Nat} {loc l : List Nat} {tb : Table}
    {rem : List Nat} (h : parseTableRest id loc l = .ok (tb, rem)) :
    tb.location = loc ∧ tb.id = id := by
  unfold parseTableRest at h
  rw [Parser.bind_ok_iff] at h
  obtain ⟨tsz, l1, _, h⟩ := h
  rw [Parser.bind_ok_iff] at h
  obtain ⟨np, l2, _, h⟩ := h
  rw [Parser.bind_ok_iff] at h
  obtain ⟨ic, l3, _, h⟩ := h
  rw [Parser.bind_ok_iff] at h
  obtain ⟨ne, l4, _, h⟩ := h
  rw [Parser.bind_ok_iff] at h
  obtain ⟨evs, l5, _, h⟩ := h
  rw [Parser.pure_def] at h
  simp only [Except.ok.injEq, Prod.mk.injEq] at h
  obtain ⟨h1, _⟩ := h
  exact ⟨by rw [← h1], by rw [← h1]⟩

/-- The byte loop stops at the first NUL, so a collected location never
contains one. -/
theorem takeUntilZero_ok_no_zero :
    ∀ {l loc rest : List Nat}, takeUntilZero l = .ok (loc, rest) →
      ∀ b ∈ loc, b ≠ 0 := by
  intro l
  induction l with
  | nil =>
    intro loc rest h
    simp [takeUntilZero] at h
  | cons x xs ih =>
    intro loc rest h
    simp only [takeUntilZero] at h
    by_cases hx : x = 0
    · rw [if_pos hx] at h
      simp only [Except.ok.injEq, Prod.mk.injEq] at h
      rw [← h.1]
      intro b hb
      simp at hb
    · rw [if_neg hx] at h
      cases ht : takeUntilZero xs with
      | ok p =>
        obtain ⟨loc', rest'⟩ := p
        rw [ht] at h
        simp only [Except.ok.injEq, Prod.mk.injEq] at h
        obtain ⟨h1, _⟩ := h
        rw [← h1]
        intro b hb
        rcases List.mem_cons.mp hb with hbx | hbm
        · rw [hbx]; exact hx
        · exact ih ht b hbm
      | error e =>
        rw [ht] at h
        simp at h

theorem readLocation_ok_no_zero {l loc rest : List Nat}
    (h : readLocation l = .ok (loc, rest)) : ∀ b ∈ loc, b ≠ 0 := by
  unfold readLocation at h
  cases ht : takeUntilZero l with
  | ok p =>
    obtain ⟨bs, r⟩ := p
    simp only [ht, Bind.bind, Except.bind] at h
    by_cases hu : validUtf8 bs = true
    · rw [if_pos hu] at h
      simp only [Except.ok.injEq, Prod.mk.injEq] at h
      rw [← h.1]
      exact takeUntilZero_ok_no_zero ht
    · rw [if_neg hu] at h
      simp at h
  | error e =>
    simp only [ht, Bind.bind, Except.bind] at h
    simp at h

theorem parseTable_ok_no_zero {l : List Nat} {tb : Table} {rem : List Nat}
    (h : parseTable l = .ok (tb, rem)) : ∀ b ∈ tb.location, b ≠ 0 := by
  unfold parseTable at h
  rw [Parser.bind_ok_iff] at h
  obtain ⟨id', l1, _, h⟩ := h
  rw [Parser.bind_ok_iff] at h
  obtain ⟨loc, l2, hl, h⟩ := h
  rw [(parseTableRest_ok h).1]
  exact readLocation_ok_no_zero hl

theorem parseCount_parseTable_no_zero :
    ∀ (n : Nat) {l : List Nat} {ts : List Table} {rem : List Nat},
      parseCount n parseTable l = .ok (ts, rem) →
      ∀ tb ∈ ts, ∀ b ∈ tb.location, b ≠ 0 := by
  intro n
  induction n with
  | zero =>
    intro l ts rem h tb htb
    rw [parseCount_zero_ok h] at htb
    simp at htb
  | succ n ih =>
    intro l ts rem h tb htb
    obtain ⟨t1, l1, rest', h1, h2, h3⟩ := parseCount_succ_ok h
    rw [h3] at htb
    rcases List.mem_cons.mp htb with heq | hmem
    · rw [heq]
      exact parseTable_ok_no_zero h1
    · exact ih h2 tb hmem

/-- Every table of a successfully decoded session has a NUL-free
location. -/
theorem read_ok_no_zero {l : List Nat} {r : HeirBin} {rem : List Nat}
    (h : HeirBin.read_from_file l = .ok (r, rem)) :
    ∀ tb ∈ r.tables, ∀ b ∈ tb.location, b ≠ 0 := by
  unfold HeirBin.read_from_file at h
  rw [Parser.bind_ok_iff] at h
  obtain ⟨m, l1, _, h⟩ := h
  unfold afterMagic at h
  by_cases hm : m = MAGIC
  · rw [if_pos hm] at h
    rw [Parser.bind_ok_iff] at h
    obtain ⟨v, l2, _, h⟩ := h
    unfold afterVersion at h
    by_cases hv : v = VERSION
    · rw [if_pos hv] at h
      rw [Parser.bind_ok_iff] at h
      obtain ⟨sid, l3, _, h⟩ := h
      unfold parseSessionBody at h
      rw [Parser.bind_ok_iff] at h
      obtain ⟨nt, l4, _, h⟩ := h
      rw [Parser.bind_ok_iff] at h
      obtain ⟨ts, l5, hts, hp⟩ := h
      rw [Parser.pure_def] at hp
      simp only [Except.ok.injEq, Prod.mk.injEq] at hp
      obtain ⟨hr, _⟩ := hp
      intro tb htb
      have hrt : r.tables = ts := by rw [← hr]
      rw [hrt] at htb
      exact parseCount_parseTable_no_zero nt hts tb htb
    · rw [if_neg hv] at h
      simp [Parser.fail] at h
  · rw [if_neg hm] at h
    simp [Parser.fail] at h

/-- C10: for every session containing a table (at any position) whose
location holds an interior NUL, encoding succeeds and writes the
location bytes unescaped followed by a NUL terminator; a decoder
reading those bytes parses the location as the strict prefix of the
original before its first NUL; and therefore no successful decode of
the encoded stream can ever return the original session. -/
theorem nul_in_location (s : HeirBin) (t : Table) (pre suf : List Nat)
    (hmem : t ∈ s.tables) (hloc : t.location = pre ++ 0 :: suf)
    (hpre : ∀ b ∈ pre, b ≠ 0) :
    (∃ bs1 bs2, HeirBin.write_to_file s =
        bs1 ++ (t.location ++ [0]) ++ bs2) ∧
    pre.length < t.location.length ∧
    (validUtf8 pre = true → ∀ rest,
      readLocation (t.location ++ ([0] ++ rest)) =
        .ok (pre, suf ++ ([0] ++ rest))) ∧
    (∀ r rem,
      HeirBin.read_from_file (HeirBin.write_to_file s) = .ok (r, rem) →
      r ≠ s) := by
  refine ⟨?_, ?_, ?_, ?_⟩
  · obtain ⟨l1, l2, hsplit⟩ := List.append_of_mem hmem
    refine ⟨MAGIC ++ [VERSION] ++ toLe 4 s.session_id ++
      toLe 1 s.tables.length ++ (l1.map encTable).flatten ++ toLe 4 t.id,
      toLe 1 t.table_size ++ toLe 1 t.initial_context.length ++
        (t.initial_context.map encPlayer).flatten ++
        toLe 4 t.events.length ++ (t.events.map encEvent).flatten ++
        (l2.map encTable).flatten, ?_⟩
    simp [HeirBin.write_to_file, hsplit, encTable, List.append_assoc]
  · rw [hloc]
    simp only [List.length_append, List.length_cons]
    omega
  · intro hu rest
    rw [hloc]
    have hassoc : (pre ++ 0 :: suf) ++ ([0] ++ rest) =
        pre ++ 0 :: (suf ++ ([0] ++ rest)) := by simp
    rw [hassoc, readLocation_cons hpre hu]
  · intro r rem hok hrs
    have hnz := read_ok_no_zero hok
    rw [hrs] at hnz
    exact hnz t hmem 0 (by rw [hloc]; simp) rfl

/-- A table whose location holds an interior NUL: bytes `A`, NUL, `B`. -/
def nulTable : Table := ⟨5, [65, 0, 66], 2, [], []⟩

/-- A clean first table, so the NUL table sits at a later position. -/
def cleanTable : Table := ⟨4, [67], 3, [], []⟩

/-- A two-table session whose second table's location holds an interior
NUL. -/
def nulSession : HeirBin := ⟨7, [cleanTable, nulTable]⟩

/-- Witness for C10 on `nulSession`, with the NUL table in second
position. -/
theorem nul_in_location_witness :
    (nulTable ∈ nulSession.tables ∧
     nulTable.location = [65] ++ 0 :: [66] ∧
     (∀ b ∈ ([65] : List Nat), b ≠ 0)) ∧
    ((∃ bs1 bs2, HeirBin.write_to_file nulSession =
        bs1 ++ (nulTable.location ++ [0]) ++ bs2) ∧
     ([65] : List Nat).length < nulTable.location.length ∧
     (validUtf8 [65] = true → ∀ rest,
        readLocation (nulTable.location ++ ([0] ++ rest)) =
          .ok ([65], [66] ++ ([0] ++ rest))) ∧
     (∀ r rem,
        HeirBin.read_from_file (HeirBin.write_to_file nulSession) =
          .ok (r, rem) → r ≠ nulSession)) :=
  ⟨⟨by decide, rfl, by decide⟩,
   nul_in_location nulSession nulTable [65] [66] (by decide) rfl
     (by decide)⟩

end Heir
